import Mathlib

/-!
Verification of the ChatRoom server (src/ChatRoom/server.cpp and the
chat_message header in src/unnamed/part_000).

The embedding follows the C++ source closely:

* `chat_message` — the frame codec.  The C++ stores the 4-byte header in a
  `char data_[]` array.  On the reference x86-64 targets `char` is signed,
  so when `decode_header` evaluates
  `(data_[0] << 24) | (data_[1] << 16) | (data_[2] << 8) | data_[3]`
  each byte is promoted to `int` with sign extension; the `int` result is
  then converted to `std::size_t` (64-bit unsigned) on assignment to
  `body_length_`.  We model a stored byte as a `Nat < 256` (its bit
  pattern), promotion by `charVal`, 32-bit twos-complement `int`
  arithmetic by `rep32`/`val32`/`shl32`/`or32`, and the conversion to
  `std::size_t` by `toSizeT`.

* `chat_room` — membership (`std::set` of participants, modelled by a
  `Finset Nat` of session identities), the bounded history deque, and the
  broadcast fan-out.  A room operation returns the new room state together
  with the ordered list of `(recipient, text)` deliveries it performs
  (set iteration is in key order, modelled by `Finset.sort`).

* `chat_session` — the read-side state machine (`sessionStep`) and the
  write-side queue machine (`wStep`), each an explicit step function on a
  configuration, with the actions/events each completion handler performs.
-/

namespace chat_message

def header_length : Nat := 4

def max_body_length : Nat := 512

/-- The four header bytes of `data_[0..3]`, each the stored bit pattern
(`0 ≤ bᵢ < 256`). -/
structure Header where
  b0 : Nat
  b1 : Nat
  b2 : Nat
  b3 : Nat
  deriving DecidableEq, Repr

/-- Value of a `char` after integral promotion to `int`.  `char` is signed
on the reference targets, so a stored pattern `b ≥ 128` promotes to the
negative value `b - 256`. -/
def charVal (b : Nat) : Int :=
  if b % 256 < 128 then (b % 256 : Int) else (b % 256 : Int) - 256

/-- Twos-complement 32-bit representation of an `int` value. -/
def rep32 (i : Int) : Nat := (i.emod (2 ^ 32)).toNat

/-- The `int` value a 32-bit representation stands for. -/
def val32 (r : Nat) : Int :=
  if r % 2 ^ 32 < 2 ^ 31 then (r % 2 ^ 32 : Int) else (r % 2 ^ 32 : Int) - 2 ^ 32

/-- `i << n` at type `int` (twos-complement wrap). -/
def shl32 (i : Int) (n : Nat) : Int := val32 (rep32 i * 2 ^ n % 2 ^ 32)

/-- `a | b` at type `int`. -/
def or32 (a b : Int) : Int := val32 (Nat.lor (rep32 a) (rep32 b))

/-- Conversion of an `int` to `std::size_t` (64-bit unsigned), as in the
assignment `body_length_ = ...`. -/
def toSizeT (i : Int) : Nat := (i.emod (2 ^ 64)).toNat

/-- The value `decode_header` assigns to `body_length_`:
`(data_[0] << 24) | (data_[1] << 16) | (data_[2] << 8) | data_[3]`,
converted to `std::size_t`. -/
def decodedValue (h : Header) : Nat :=
  toSizeT (or32 (or32 (or32 (shl32 (charVal h.b0) 24) (shl32 (charVal h.b1) 16))
    (shl32 (charVal h.b2) 8)) (charVal h.b3))

/-- Source `bool decode_header()`: assigns `decodedValue` to `body_length_`; if that
exceeds `max_body_length` it resets `body_length_` to 0 and returns `false`.
The result is `(return value, new body_length_)`. -/
def decode_header (h : Header) : Bool × Nat :=
  let bl := decodedValue h
  if bl > max_body_length then (false, 0) else (true, bl)

/-- Source `void encode_header()`: stores the four bytes
`(body_length_ >> k) & 0xFF` for `k = 24, 16, 8, 0` into `data_[0..3]`. -/
def encode_header (body_length_ : Nat) : Header :=
  ⟨body_length_ / 2 ^ 24 % 256, body_length_ / 2 ^ 16 % 256,
   body_length_ / 2 ^ 8 % 256, body_length_ % 256⟩

/-- The unsigned big-endian number the four header bytes spell — the
"declared length" of the framing format of the spec. -/
def bigEndianValue (h : Header) : Nat :=
  h.b0 % 256 * 2 ^ 24 + h.b1 % 256 * 2 ^ 16 + h.b2 % 256 * 2 ^ 8 + h.b3 % 256

/-- Source `chat_message(std::string const&)`: clamps `body_length_` to
`max_body_length`, copies that many bytes of the message into the body and
encodes the header.  The message is a byte string, modelled as `List Nat`;
the result is `(body_length_, body bytes, header)`. -/
def ofString (msg : List Nat) : Nat × List Nat × Header :=
  let body_length_ := if msg.length > max_body_length then max_body_length else msg.length
  (body_length_, msg.take body_length_, encode_header body_length_)

end chat_message

/-- A session identity: `std::set<chat_participant_ptr>` keys members by
the shared-pointer value, a stable per-session key; we use `Nat`. -/
abbrev SessionId := Nat

/-- The state of a `chat_room`: room name, the member set
(`participants_`, a `std::set` iterated in key order) and the history
deque `recent_msgs_` (front = oldest). -/
structure chat_room where
  room_name_ : String
  participants_ : Finset SessionId
  recent_msgs_ : List String
  deriving DecidableEq

namespace chat_room

def max_recent_msgs : Nat := 100

/-- Source loop `while (recent_msgs_.size() > max_recent_msgs) recent_msgs_.pop_front();` -/
def trimFront : List String → List String
  | [] => []
  | m :: rest =>
    if max_recent_msgs < (m :: rest).length then trimFront rest else m :: rest

/-- Iteration over `participants_` (a `std::set`), in key order. -/
def memberList (st : chat_room) : List SessionId :=
  st.participants_.sort (· ≤ ·)

/-- Source `deliver(msg, sender)`: formats `"<nickname> says: <msg>"`, appends it
to `recent_msgs_`, pops the front while over `max_recent_msgs`, then calls
`participant->deliver` for every member other than `sender`.  `nick` maps a
session identity to its `nickname()`.  Returns the new state and the
ordered `(recipient, text)` deliveries. -/
def deliver (st : chat_room) (nick : SessionId → String) (msg : String)
    (sender : SessionId) : chat_room × List (SessionId × String) :=
  let text := nick sender ++ " says: " ++ msg
  ({ st with recent_msgs_ := trimFront (st.recent_msgs_ ++ [text]) },
   (st.memberList.filter (fun p => sender ≠ p)).map (fun p => (p, text)))

/-- Source `system_prompt(msg, blocked_user)`: delivers `"system prompt: <msg>"`
to every member other than `blocked_user`; the room state is untouched. -/
def system_prompt (st : chat_room) (msg : String) (blocked_user : SessionId) :
    chat_room × List (SessionId × String) :=
  (st, (st.memberList.filter (fun p => blocked_user ≠ p)).map
    (fun p => (p, "system prompt: " ++ msg)))

/-- The delimiter line `join` sends after replaying a non-empty history. -/
def historyDelimiter : String := "----------以上是历史聊天记录----------"

/-- Source `join(participant)`: inserts the participant, replays `recent_msgs_` to
it in order, sends the delimiter if the history was non-empty, then
broadcasts the join notice via `system_prompt` with the participant
blocked. -/
def join (st : chat_room) (nick : SessionId → String) (participant : SessionId) :
    chat_room × List (SessionId × String) :=
  let st1 := { st with participants_ := insert participant st.participants_ }
  let replay := st1.recent_msgs_.map (fun m => (participant, m))
  let delim :=
    if st1.recent_msgs_.isEmpty then [] else [(participant, historyDelimiter)]
  let notice := st1.system_prompt (nick participant ++ "加入了聊天室――") participant
  (notice.1, replay ++ delim ++ notice.2)

/-- Source `leave(participant)`: erases the participant from the member set. -/
def leave (st : chat_room) (participant : SessionId) : chat_room :=
  { st with participants_ := st.participants_.erase participant }

/-- Delivering a whole list of messages in sequence from one sender, with
no joins or leaves in between (only the room state is tracked). -/
def deliverAll (nick : SessionId → String) (sender : SessionId) :
    chat_room → List String → chat_room
  | st, [] => st
  | st, m :: ms => deliverAll nick sender (st.deliver nick m sender).1 ms

end chat_room

namespace chat_session

/-- The `auth_state` enum of `chat_session`.  The spec names these
`Unauthenticated`, `Authenticated` and `Closed`. -/
inductive auth_state
  | NOT_AUTHED
  | AUTHED
  | FAILED
  deriving DecidableEq, Repr

/-- Which asynchronous read the session has outstanding: the callback
chain alternates `do_read_header` and `do_read_body`; after an error
branch neither is re-issued, modelled by `pending = none`. -/
inductive PendingRead
  | header
  | body
  deriving DecidableEq, Repr

/-- The calls a read-completion handler makes on the room or on the
session itself, in order. -/
inductive RoomAction
  | leave
  | join
  | roomDeliver (body : String)
  | selfDeliver (text : String)
  deriving DecidableEq, Repr

/-- The read-side configuration of a `chat_session`: its `state_`,
`nickname_`, the `body_length_` of `read_msg_`, and the outstanding read. -/
structure Cfg where
  state_ : auth_state
  nickname_ : String
  readLen : Nat
  pending : Option PendingRead
  deriving DecidableEq, Repr

/-- Completion of an asynchronous read: the error code (`ec = true` means
failure) and the bytes read into `read_msg_` — header bytes for a header
read, body text for a body read. -/
structure Completion where
  ec : Bool
  header : chat_message.Header
  body : String

/-- The line the session sends itself right before joining the room. -/
def authConfirmation : String := "----------通过验证，开始聊天----------\n\n"

/-- One read completion, from the handlers in `do_read_header` /
`do_read_body`.  `none` when no read is outstanding: after an error the
session schedules nothing, so no handler can run.  On a header completion
the code tests `!ec && read_msg_.decode_header()` (short-circuit: a
failed read leaves `body_length_` untouched); on success it issues the
body read, otherwise it calls `room_.leave` and stops.  On a body
completion with no error: in `NOT_AUTHED` it takes the body as the
nickname, moves to `AUTHED`, sends the confirmation to itself and calls
`room_.join`; in `AUTHED` it calls `room_.deliver`; then it re-issues the
header read.  On a body-read error it calls `room_.leave` and stops. -/
def sessionStep (c : Cfg) (ev : Completion) : Option (Cfg × List RoomAction) :=
  match c.pending with
  | none => none
  | some PendingRead.header =>
    if ev.ec then
      some ({ c with pending := none }, [RoomAction.leave])
    else
      match chat_message.decode_header ev.header with
      | (true, bl) => some ({ c with readLen := bl, pending := some PendingRead.body }, [])
      | (false, bl) => some ({ c with readLen := bl, pending := none }, [RoomAction.leave])
  | some PendingRead.body =>
    if ev.ec then
      some ({ c with pending := none }, [RoomAction.leave])
    else
      match c.state_ with
      | auth_state.NOT_AUTHED =>
        some ({ c with nickname_ := ev.body, state_ := auth_state.AUTHED,
                       pending := some PendingRead.header },
              [RoomAction.selfDeliver authConfirmation, RoomAction.join])
      | auth_state.AUTHED =>
        some ({ c with pending := some PendingRead.header },
              [RoomAction.roomDeliver ev.body])
      | auth_state.FAILED =>
        some ({ c with pending := some PendingRead.header }, [])

/-- Commands arriving at the write side of a session: an external
`deliver(msg)` call (from the room), or the completion of the
outstanding `async_write` (`ok = false` on a write error). -/
inductive WCmd
  | deliver (msg : String)
  | complete (ok : Bool)
  deriving DecidableEq, Repr

/-- Observable write-side events, in order: `async_write` issued for a
frame, a frame fully transmitted, and the `room_.leave` call of the
write-error branch. -/
inductive WEvent
  | beginWrite (msg : String)
  | transmitted (msg : String)
  | leaveRoom
  deriving DecidableEq, Repr

/-- Write-side state of a `chat_session`: the `write_msgs_` queue (when a
write is outstanding its frame is the front element, popped only on
completion) and whether an `async_write` is outstanding. -/
structure WState where
  write_msgs_ : List String
  inFlight : Bool
  deriving DecidableEq, Repr

def wInit : WState := { write_msgs_ := [], inFlight := false }

/-- One write-side step.  From `chat_session::deliver`: remember
`!write_msgs_.empty()`, push the message, and call `do_write` (issue
`async_write` for the front) only when no write was in progress.  From
the `do_write` completion handler: on success pop the front and, if the
queue is still non-empty, issue the next `async_write`; on error call
`room_.leave`.  A completion can only arrive while a write is
outstanding; `none` marks the impossible commands. -/
def wStep (s : WState) (cmd : WCmd) : Option (WState × List WEvent) :=
  match cmd with
  | WCmd.deliver msg =>
    if s.write_msgs_.isEmpty then
      some ({ write_msgs_ := s.write_msgs_ ++ [msg], inFlight := true },
            [WEvent.beginWrite msg])
    else
      some ({ s with write_msgs_ := s.write_msgs_ ++ [msg] }, [])
  | WCmd.complete ok =>
    if s.inFlight then
      match s.write_msgs_ with
      | [] => none
      | front :: rest =>
        if ok then
          match rest with
          | [] => some ({ write_msgs_ := [], inFlight := false },
                        [WEvent.transmitted front])
          | next :: _ =>
            some ({ write_msgs_ := rest, inFlight := true },
                  [WEvent.transmitted front, WEvent.beginWrite next])
        else
          some ({ s with inFlight := false }, [WEvent.leaveRoom])
    else none

/-- A whole write-side run: the final state and the concatenated event
trace, `none` as soon as a command is impossible. -/
def wRun : WState → List WCmd → Option (WState × List WEvent)
  | s, [] => some (s, [])
  | s, c :: cs =>
    (wStep s c).bind fun r =>
      (wRun r.1 cs).bind fun r2 => some (r2.1, r.2 ++ r2.2)

/-- The messages the `deliver` calls of a command list enqueue, in call
order. -/
def enqueuedMsgs : List WCmd → List String
  | [] => []
  | WCmd.deliver m :: cs => m :: enqueuedMsgs cs
  | WCmd.complete _ :: cs => enqueuedMsgs cs

/-- The frames a trace transmits, in order. -/
def transmittedMsgs : List WEvent → List String
  | [] => []
  | WEvent.transmitted m :: tr => m :: transmittedMsgs tr
  | _ :: tr => transmittedMsgs tr

/-- Replays a trace against the one-write-in-flight discipline: `b` says
whether a write is on the wire.  A write may begin only when none is on
the wire; a frame is transmitted, or the write-error `leave` happens,
only while one is.  Returns the flag after the trace, `none` on a
violation. -/
def flight : Bool → List WEvent → Option Bool
  | false, WEvent.beginWrite _ :: tr => flight true tr
  | true, WEvent.transmitted _ :: tr => flight false tr
  | true, WEvent.leaveRoom :: tr => flight false tr
  | b, [] => some b
  | _, _ :: _ => none

end chat_session

namespace chat_room

/-- A room operation, as a session invokes it. -/
inductive RoomOp
  | join (p : SessionId)
  | leave (p : SessionId)
  | deliver (msg : String) (sender : SessionId)
  | system_prompt (msg : String) (blocked : SessionId)

/-- Runs a list of room operations in order, concatenating the
deliveries each performs. -/
def roomRun (nick : SessionId → String) :
    chat_room → List RoomOp → chat_room × List (SessionId × String)
  | st, [] => (st, [])
  | st, op :: ops =>
    let step :=
      match op with
      | RoomOp.join p => st.join nick p
      | RoomOp.leave p => (st.leave p, [])
      | RoomOp.deliver msg sender => st.deliver nick msg sender
      | RoomOp.system_prompt msg blocked => st.system_prompt msg blocked
    let rest := roomRun nick step.1 ops
    (rest.1, step.2 ++ rest.2)

end chat_room

/-! ### Supporting lemmas about room broadcasts -/

/-- A duplicate-free list counts each of its members once (for any lawful
boolean equality). -/
theorem count_one_of_nodup {α} [BEq α] [LawfulBEq α] {l : List α} {a : α}
    (d : l.Nodup) (h : a ∈ l) : l.count a = 1 := by
  induction l with
  | nil => simp at h
  | cons x xs ih =>
    rcases List.mem_cons.mp h with rfl | h2
    · rw [List.count_cons_self,
        List.count_eq_zero.mpr (List.nodup_cons.mp d).1]
    · rw [List.count_cons_of_ne
          (fun hax : a = x => (List.nodup_cons.mp d).1 (hax ▸ h2)),
        ih (List.nodup_cons.mp d).2 h2]

namespace chat_room

theorem memberList_nodup (st : chat_room) : st.memberList.Nodup :=
  Finset.sort_nodup _ _

theorem mem_memberList {st : chat_room} {p : SessionId} :
    p ∈ st.memberList ↔ p ∈ st.participants_ :=
  Finset.mem_sort _

/-- A broadcast `(members.filter (≠ excluded)).map (p, text)` delivers to
each non-excluded member exactly once. -/
theorem count_broadcast (st : chat_room) (excluded p : SessionId) (text : String)
    (hp : p ∈ st.participants_) (hne : p ≠ excluded) :
    ((st.memberList.filter (fun q => excluded ≠ q)).map
      (fun q => (q, text))).count (p, text) = 1 := by
  apply count_one_of_nodup
  · exact ((st.memberList_nodup.filter _).map
      (fun a b h => by simpa using congrArg Prod.fst h))
  · simp only [List.mem_map, List.mem_filter]
    refine ⟨p, ⟨mem_memberList.mpr hp, ?_⟩, rfl⟩
    simpa using hne.symm

/-- The excluded participant of a broadcast receives nothing from it. -/
theorem excluded_not_mem_broadcast (st : chat_room) (excluded : SessionId)
    (text s : String) :
    (excluded, s) ∉ (st.memberList.filter (fun q => excluded ≠ q)).map
      (fun q => (q, text)) := by
  simp only [List.mem_map, List.mem_filter, Prod.mk.injEq, not_exists, not_and]
  rintro q ⟨-, hq⟩ rfl
  simp at hq

/-- Every delivery of a broadcast goes to a non-excluded member and
carries the broadcast text. -/
theorem mem_broadcast (st : chat_room) (excluded : SessionId) (text : String)
    {e : SessionId × String}
    (he : e ∈ (st.memberList.filter (fun q => excluded ≠ q)).map
      (fun q => (q, text))) :
    e.1 ∈ st.participants_ ∧ e.1 ≠ excluded ∧ e.2 = text := by
  simp only [List.mem_map, List.mem_filter] at he
  obtain ⟨q, ⟨hq, hne⟩, rfl⟩ := he
  exact ⟨mem_memberList.mp hq, by simpa using fun h => by simp [h] at hne, rfl⟩

end chat_room

/-! ### Claim theorems -/

/-- C4: for every room state and every `Room.deliver(body, sender)` call,
the sender never receives its own broadcast copy, and every other member
present in the membership set at call time receives the formatted message
exactly once (and nothing else is delivered). -/
theorem C4_deliver_no_echo_exactly_once (st : chat_room)
    (nick : SessionId → String) (msg : String) (sender : SessionId) :
    (∀ s, (sender, s) ∉ (st.deliver nick msg sender).2)
    ∧ (∀ p, p ∈ st.participants_ → p ≠ sender →
        (st.deliver nick msg sender).2.count (p, nick sender ++ " says: " ++ msg) = 1)
    ∧ (∀ e, e ∈ (st.deliver nick msg sender).2 →
        e.1 ∈ st.participants_ ∧ e.1 ≠ sender
          ∧ e.2 = nick sender ++ " says: " ++ msg) := by
  refine ⟨fun s => ?_, fun p hp hne => ?_, fun e he => ?_⟩
  · exact st.excluded_not_mem_broadcast sender _ s
  · exact st.count_broadcast sender p _ hp hne
  · exact st.mem_broadcast sender _ he

/-- C9: `system_prompt` broadcasts the system-formatted text to every
member except the excluded one, exactly once each, and leaves the room
state — history and membership alike — unchanged. -/
theorem C9_system_prompt_frame (st : chat_room) (msg : String) (ex : SessionId) :
    (st.system_prompt msg ex).1 = st
    ∧ (∀ s, (ex, s) ∉ (st.system_prompt msg ex).2)
    ∧ (∀ p, p ∈ st.participants_ → p ≠ ex →
        (st.system_prompt msg ex).2.count (p, "system prompt: " ++ msg) = 1)
    ∧ (∀ e, e ∈ (st.system_prompt msg ex).2 →
        e.1 ∈ st.participants_ ∧ e.1 ≠ ex ∧ e.2 = "system prompt: " ++ msg) :=
  ⟨rfl, fun s => st.excluded_not_mem_broadcast ex _ s,
    fun p hp hne => st.count_broadcast ex p _ hp hne,
    fun _ he => st.mem_broadcast ex _ he⟩

/-- C8: `leave` of a non-member is a no-op that does not fail; leaving
twice equals leaving once; the left session is no longer a member, no
other membership is touched, and the member count drops by exactly one
when the session was a member — and stays there after a second `leave`. -/
theorem C8_leave_idempotent (st : chat_room) (p : SessionId) :
    (p ∉ st.participants_ → st.leave p = st)
    ∧ (st.leave p).leave p = st.leave p
    ∧ p ∉ (st.leave p).participants_
    ∧ (∀ q, q ≠ p → (q ∈ (st.leave p).participants_ ↔ q ∈ st.participants_))
    ∧ (st.leave p).participants_.card
        = st.participants_.card - (if p ∈ st.participants_ then 1 else 0)
    ∧ ((st.leave p).leave p).participants_.card
        = st.participants_.card - (if p ∈ st.participants_ then 1 else 0) := by
  have herase : st.participants_.erase p = (st.leave p).participants_ := rfl
  refine ⟨fun hnm => ?_, ?_, Finset.not_mem_erase p _,
    fun q hq => ?_, ?_, ?_⟩
  · cases st
    simp [chat_room.leave, Finset.erase_eq_of_not_mem hnm]
  · cases st
    simp [chat_room.leave, Finset.erase_idem]
  · simp [chat_room.leave, Finset.mem_erase, hq]
  · by_cases hp : p ∈ st.participants_
    · simp [chat_room.leave, Finset.card_erase_of_mem hp, hp]
    · simp [chat_room.leave, Finset.erase_eq_of_not_mem hp, hp]
  · by_cases hp : p ∈ st.participants_
    · simp [chat_room.leave, Finset.erase_idem, Finset.card_erase_of_mem hp, hp]
    · simp [chat_room.leave, Finset.erase_eq_of_not_mem hp, hp]

/-! ### Supporting lemmas about the bounded history -/

namespace chat_room

/-- The eviction loop drops exactly down to the last `max_recent_msgs`
entries. -/
theorem trimFront_eq_drop (l : List String) :
    trimFront l = l.drop (l.length - max_recent_msgs) := by
  induction l with
  | nil => simp [trimFront]
  | cons m rest ih =>
    by_cases h : max_recent_msgs < (m :: rest).length
    · rw [trimFront, if_pos h, ih]
      have hlen : (m :: rest).length - max_recent_msgs
          = (rest.length - max_recent_msgs) + 1 := by
        simp only [List.length_cons] at h ⊢
        omega
      rw [hlen, List.drop_succ_cons]
    · rw [trimFront, if_neg h]
      have hlen : (m :: rest).length - max_recent_msgs = 0 := by omega
      rw [hlen, List.drop_zero]

theorem trimFront_length (l : List String) :
    (trimFront l).length = min l.length max_recent_msgs := by
  rw [trimFront_eq_drop, List.length_drop]
  omega

/-- Keeping only the last `n` entries and then appending more, then again
keeping the last `n`, is the same as keeping the last `n` of the whole. -/
theorem lastN_append_lastN {α} (l r : List α) (n : Nat) :
    (l.drop (l.length - n) ++ r).drop ((l.drop (l.length - n) ++ r).length - n)
      = (l ++ r).drop ((l ++ r).length - n) := by
  by_cases h : l.length ≤ n
  · simp only [Nat.sub_eq_zero_of_le h, List.drop_zero]
  · have hd : l.length - n ≤ l.length := Nat.sub_le _ _
    simp only [List.length_append, List.length_drop]
    rw [← List.drop_append_of_le_length hd]
    rw [List.drop_drop]
    congr 1
    omega

/-- After a sequence of `deliver` calls with no joins or leaves, the
history holds the last `max_recent_msgs` entries of the old history
followed by the formatted messages, in order. -/
theorem deliverAll_recent_msgs (nick : SessionId → String) (sender : SessionId) :
    ∀ (ms : List String) (st : chat_room),
    st.recent_msgs_.length ≤ max_recent_msgs →
    (deliverAll nick sender st ms).recent_msgs_
      = (st.recent_msgs_ ++ ms.map (fun m => nick sender ++ " says: " ++ m)).drop
          ((st.recent_msgs_
              ++ ms.map (fun m => nick sender ++ " says: " ++ m)).length
            - max_recent_msgs) := by
  intro ms
  induction ms with
  | nil =>
    intro st h
    simp only [deliverAll, List.map_nil, List.append_nil,
      Nat.sub_eq_zero_of_le h, List.drop_zero]
  | cons m ms ih =>
    intro st h
    have hstep : (st.deliver nick m sender).1.recent_msgs_
        = (st.recent_msgs_ ++ [nick sender ++ " says: " ++ m]).drop
            ((st.recent_msgs_ ++ [nick sender ++ " says: " ++ m]).length
              - max_recent_msgs) := by
      simp only [deliver]
      exact trimFront_eq_drop _
    have hlen : (st.deliver nick m sender).1.recent_msgs_.length
        ≤ max_recent_msgs := by
      simp only [deliver]
      rw [trimFront_length]
      omega
    rw [deliverAll, ih _ hlen, hstep,
      lastN_append_lastN (st.recent_msgs_ ++ [nick sender ++ " says: " ++ m])
        (ms.map (fun m => nick sender ++ " says: " ++ m)) max_recent_msgs,
      List.append_assoc]
    simp

end chat_room

/-- C5: `Room.deliver` appends the formatted `"<nickname> says: <body>"`
string to the history and evicts oldest-first, so the history never
exceeds 100 entries; in particular, after delivering 101 messages to a
room with empty history and no joins or leaves, the history holds exactly
the formatted last 100 messages in order, the first one evicted. -/
theorem C5_bounded_history (st : chat_room) (nick : SessionId → String)
    (sender : SessionId) (ms : List String)
    (h0 : st.recent_msgs_ = []) (h101 : ms.length = 101) :
    (chat_room.deliverAll nick sender st ms).recent_msgs_
        = (ms.map (fun m => nick sender ++ " says: " ++ m)).drop 1
    ∧ (chat_room.deliverAll nick sender st ms).recent_msgs_.length = 100
    ∧ (∀ (st2 : chat_room) (msg : String),
        (st2.deliver nick msg sender).1.recent_msgs_
          = (st2.recent_msgs_ ++ [nick sender ++ " says: " ++ msg]).drop
              ((st2.recent_msgs_ ++ [nick sender ++ " says: " ++ msg]).length
                - chat_room.max_recent_msgs)
        ∧ (st2.deliver nick msg sender).1.recent_msgs_.length
            ≤ chat_room.max_recent_msgs) := by
  have hmain := chat_room.deliverAll_recent_msgs nick sender ms st
    (by rw [h0]; simp [chat_room.max_recent_msgs])
  rw [h0] at hmain
  simp only [List.nil_append, List.length_map, h101] at hmain
  refine ⟨?_, ?_, fun st2 msg => ⟨?_, ?_⟩⟩
  · rw [hmain]
    norm_num [chat_room.max_recent_msgs]
  · rw [hmain, List.length_drop, List.length_map, h101]
    norm_num [chat_room.max_recent_msgs]
  · simp only [chat_room.deliver]
    exact chat_room.trimFront_eq_drop _
  · simp only [chat_room.deliver]
    rw [chat_room.trimFront_length]
    omega

/-- Witness for C5 at a concrete run: 101 deliveries into an initially
empty room leave exactly the last 100 formatted messages. -/
theorem C5_bounded_history_witness :
    (chat_room.deliverAll (fun _ => "alice") 0
        ⟨"10001", ∅, []⟩ (List.replicate 101 "hi")).recent_msgs_
        = ((List.replicate 101 "hi").map
            (fun m => (fun (_ : SessionId) => "alice") 0 ++ " says: " ++ m)).drop 1
    ∧ (chat_room.deliverAll (fun _ => "alice") 0
        ⟨"10001", ∅, []⟩ (List.replicate 101 "hi")).recent_msgs_.length = 100
    ∧ (∀ (st2 : chat_room) (msg : String),
        (st2.deliver (fun _ => "alice") msg 0).1.recent_msgs_
          = (st2.recent_msgs_
              ++ [(fun (_ : SessionId) => "alice") 0 ++ " says: " ++ msg]).drop
              ((st2.recent_msgs_
                  ++ [(fun (_ : SessionId) => "alice") 0 ++ " says: " ++ msg]).length
                - chat_room.max_recent_msgs)
        ∧ (st2.deliver (fun _ => "alice") msg 0).1.recent_msgs_.length
            ≤ chat_room.max_recent_msgs) :=
  C5_bounded_history ⟨"10001", ∅, []⟩ (fun _ => "alice") 0
    (List.replicate 101 "hi") rfl (by simp)

/-- C6: a joining session receives the existing history in original
chronological order, followed by exactly one delimiter notice iff the
history was non-empty — and nothing else from the join; the join system
notice reaches every other current member exactly once and never the
joining session; and everything the join delivers precedes whatever any
subsequent room operations deliver. -/
theorem C6_join_replay_ordering (st : chat_room) (nick : SessionId → String)
    (p : SessionId) (ops : List chat_room.RoomOp) :
    ((st.join nick p).2.filter (fun e => e.1 == p)
        = st.recent_msgs_.map (fun m => (p, m))
          ++ (if st.recent_msgs_ = [] then []
              else [(p, chat_room.historyDelimiter)]))
    ∧ (∀ q, q ∈ insert p st.participants_ → q ≠ p →
        (st.join nick p).2.count
          (q, "system prompt: " ++ (nick p ++ "加入了聊天室――")) = 1)
    ∧ (st.join nick p).1.participants_ = insert p st.participants_
    ∧ (chat_room.roomRun nick st (chat_room.RoomOp.join p :: ops)).2
        = (st.join nick p).2 ++ (chat_room.roomRun nick (st.join nick p).1 ops).2 := by
  refine ⟨?_, fun q hq hqp => ?_, rfl, rfl⟩
  · simp only [chat_room.join, List.filter_append]
    have h1 : (st.recent_msgs_.map (fun m => (p, m))).filter
        (fun e => e.1 == p) = st.recent_msgs_.map (fun m => (p, m)) :=
      List.filter_eq_self.mpr (by simp +contextual [List.mem_map])
    have h3 : List.filter (fun (e : SessionId × String) => e.1 == p)
        (List.map (fun q => (q, "system prompt: " ++ (nick p ++ "加入了聊天室――")))
          (List.filter (fun q => p ≠ q)
            ((insert p st.participants_ : Finset SessionId).sort (· ≤ ·)))) = [] := by
      rw [List.filter_eq_nil_iff]
      intro e he
      simp only [List.mem_map, List.mem_filter] at he
      obtain ⟨q, ⟨-, hne⟩, rfl⟩ := he
      simp only [beq_iff_eq]
      intro hqq
      simp [hqq] at hne
    rw [h1]
    by_cases hh : st.recent_msgs_ = []
    · simp only [hh, List.isEmpty_nil, if_pos, if_true]
      simpa [chat_room.system_prompt, chat_room.memberList] using h3
    · rw [if_neg hh, if_neg (by simpa [List.isEmpty_iff] using hh)]
      have h2 : ([(p, chat_room.historyDelimiter)].filter (fun e => e.1 == p))
          = [(p, chat_room.historyDelimiter)] := by simp
      rw [h2]
      simpa [chat_room.system_prompt, chat_room.memberList] using h3
  · have hq1 : q ∈ ({ st with
        participants_ := insert p st.participants_ } : chat_room).participants_ := hq
    have hcount := chat_room.count_broadcast
      { st with participants_ := insert p st.participants_ } p q
      ("system prompt: " ++ (nick p ++ "加入了聊天室――")) hq1 hqp
    simp only [chat_room.join, List.count_append]
    have hpq : ¬ p = q := fun h => hqp h.symm
    have hzero1 : (st.recent_msgs_.map (fun m => (p, m))).count
        (q, "system prompt: " ++ (nick p ++ "加入了聊天室――")) = 0 := by
      rw [List.count_eq_zero]
      simp [List.mem_map, Prod.mk.injEq, hqp, hpq]
    have hzero2 : ((if (st.recent_msgs_ : List String).isEmpty then []
          else [(p, chat_room.historyDelimiter)]) :
            List (SessionId × String)).count
        (q, "system prompt: " ++ (nick p ++ "加入了聊天室――")) = 0 := by
      split
      · rfl
      · rw [List.count_eq_zero]
        simp [Prod.mk.injEq, hqp, hpq]
    rw [hzero1, hzero2]
    simpa [chat_room.system_prompt] using hcount

/-- C1 as stated fails on the code: the encode/decode round trip breaks
at declared length 128.  `encode_header 128` stores low byte `0x80`;
signed-`char` promotion makes `decode_header` read the header back as
the negative `int` −128, whose `size_t` conversion exceeds 512, so the
decode reports a frame error and zeroes the length instead of returning
128.  Lengths whose low byte is below `0x80`, such as 0, 127 and 512, do
round-trip. -/
theorem C1_roundtrip_breaks_at_128 :
    chat_message.decode_header (chat_message.encode_header 128) = (false, 0)
    ∧ 128 ≤ chat_message.max_body_length
    ∧ chat_message.decode_header (chat_message.encode_header 0) = (true, 0)
    ∧ chat_message.decode_header (chat_message.encode_header 127) = (true, 127)
    ∧ chat_message.decode_header (chat_message.encode_header 512) = (true, 512) := by
  decide

/-- C2 as stated fails on the code: the header bytes `00 00 00 80`
declare the big-endian length 128, well below 512, yet `decode_header`
reports failure (and zeroes `body_length_`) because the low byte is
sign-extended.  A genuinely oversized header such as `00 00 02 01`
(declared 513) is indeed rejected. -/
theorem C2_decode_rejects_valid_128 :
    chat_message.bigEndianValue ⟨0, 0, 0, 128⟩ = 128
    ∧ 128 ≤ chat_message.max_body_length
    ∧ chat_message.decode_header ⟨0, 0, 0, 128⟩ = (false, 0)
    ∧ chat_message.bigEndianValue ⟨0, 0, 2, 1⟩ = 513
    ∧ chat_message.decode_header ⟨0, 0, 2, 1⟩ = (false, 0) := by
  decide

/-- C10: constructing a `chat_message` from a string longer than 512
bytes silently truncates the body to the first 512 bytes and encodes a
header declaring exactly length 512 — nothing is rejected. -/
theorem C10_constructor_truncates (msg : List Nat)
    (hlong : msg.length > 512) :
    chat_message.ofString msg
        = (512, msg.take 512, chat_message.encode_header 512)
    ∧ (chat_message.ofString msg).2.1.length = 512
    ∧ chat_message.bigEndianValue (chat_message.encode_header 512) = 512 := by
  have hm : chat_message.max_body_length = 512 := rfl
  refine ⟨?_, ?_, by decide⟩
  · simp [chat_message.ofString, hm, hlong]
  · simp only [chat_message.ofString, hm, hlong, if_pos]
    rw [List.length_take]
    omega

/-- Witness for C10 at a 513-byte message. -/
theorem C10_constructor_truncates_witness :
    chat_message.ofString (List.replicate 513 65)
        = (512, (List.replicate 513 65).take 512, chat_message.encode_header 512)
    ∧ (chat_message.ofString (List.replicate 513 65)).2.1.length = 512
    ∧ chat_message.bigEndianValue (chat_message.encode_header 512) = 512 :=
  C10_constructor_truncates (List.replicate 513 65)
    (by simp only [List.length_replicate]; norm_num)

/-- C3 as stated fails on the code: on a read failure the session calls
`Room.leave` and stops reading, but its `state_` field stays `AUTHED` —
the terminal `FAILED` value (the `Closed` of the spec) is never
assigned by any branch. -/
theorem C3_no_closed_transition_counterexample :
    chat_session.sessionStep
        ⟨chat_session.auth_state.AUTHED, "alice", 0,
          some chat_session.PendingRead.header⟩
        ⟨true, ⟨0, 0, 0, 0⟩, ""⟩
      = some (⟨chat_session.auth_state.AUTHED, "alice", 0, none⟩,
          [chat_session.RoomAction.leave])
    ∧ chat_session.auth_state.AUTHED ≠ chat_session.auth_state.FAILED :=
  ⟨rfl, by decide⟩

/-- C3 amended: on any read failure — and, for header reads, any decode
failure — in any state, the session calls `Room.leave` on itself (and
does nothing else), schedules no further read, and keeps its auth state
and nickname unchanged; the resulting halted configuration admits no
further step at all. -/
theorem C3_failure_leaves_and_halts (c : chat_session.Cfg)
    (ev : chat_session.Completion)
    (hpending : c.pending ≠ none)
    (hfail : ev.ec = true
      ∨ (c.pending = some chat_session.PendingRead.header
          ∧ (chat_message.decode_header ev.header).1 = false)) :
    ∃ c2, chat_session.sessionStep c ev
        = some (c2, [chat_session.RoomAction.leave])
      ∧ c2.pending = none
      ∧ c2.state_ = c.state_
      ∧ c2.nickname_ = c.nickname_
      ∧ (∀ ev2, chat_session.sessionStep c2 ev2 = none) := by
  rcases hp : c.pending with - | pr
  · exact absurd hp hpending
  · rcases pr with - | -
    · by_cases hec : ev.ec
      · refine ⟨{ c with pending := none }, ?_, rfl, rfl, rfl, fun ev2 => rfl⟩
        simp [chat_session.sessionStep, hp, hec]
      · rcases hfail with hfail | ⟨-, hdec⟩
        · exact absurd hfail hec
        · rcases hd : chat_message.decode_header ev.header with ⟨b, bl⟩
          rcases b with - | -
          · refine ⟨{ c with readLen := bl, pending := none }, ?_, rfl, rfl, rfl,
              fun ev2 => rfl⟩
            simp [chat_session.sessionStep, hp, hec, hd]
          · rw [hd] at hdec
            simp at hdec
    · rcases hfail with hec | ⟨hph, -⟩
      · refine ⟨{ c with pending := none }, ?_, rfl, rfl, rfl, fun ev2 => rfl⟩
        simp [chat_session.sessionStep, hp, hec]
      · rw [hp] at hph
        simp at hph

/-- Witness for the amended C3 at a concrete failing body read. -/
theorem C3_failure_leaves_and_halts_witness :
    ∃ c2, chat_session.sessionStep
        ⟨chat_session.auth_state.NOT_AUTHED, "", 0,
          some chat_session.PendingRead.body⟩
        ⟨true, ⟨0, 0, 0, 0⟩, ""⟩
        = some (c2, [chat_session.RoomAction.leave])
      ∧ c2.pending = none
      ∧ c2.state_ = chat_session.auth_state.NOT_AUTHED
      ∧ c2.nickname_ = ""
      ∧ (∀ ev2, chat_session.sessionStep c2 ev2 = none) :=
  C3_failure_leaves_and_halts
    ⟨chat_session.auth_state.NOT_AUTHED, "", 0,
      some chat_session.PendingRead.body⟩
    ⟨true, ⟨0, 0, 0, 0⟩, ""⟩ (by simp) (Or.inl rfl)

/-! ### Supporting lemmas about the write loop -/

namespace chat_session

theorem transmittedMsgs_append (a b : List WEvent) :
    transmittedMsgs (a ++ b) = transmittedMsgs a ++ transmittedMsgs b := by
  induction a with
  | nil => rfl
  | cons e rest ih => cases e <;> simp [transmittedMsgs, ih]

/-- Each write-side step conserves the queue contents: what it transmits
plus what remains is what was queued plus what it enqueues. -/
theorem wStep_conservation {s s1 : WState} {c : WCmd} {evs : List WEvent}
    (h : wStep s c = some (s1, evs)) :
    transmittedMsgs evs ++ s1.write_msgs_
      = s.write_msgs_ ++ enqueuedMsgs [c] := by
  rcases c with m | ok
  · by_cases he : s.write_msgs_.isEmpty
    · simp only [wStep, he, if_pos, Option.some.injEq, Prod.mk.injEq] at h
      obtain ⟨h1, h2⟩ := h
      subst h1
      subst h2
      simp [transmittedMsgs, enqueuedMsgs]
    · simp only [wStep, he, Bool.false_eq_true, if_false,
        Option.some.injEq, Prod.mk.injEq] at h
      obtain ⟨h1, h2⟩ := h
      subst h1
      subst h2
      simp [transmittedMsgs, enqueuedMsgs]
  · by_cases hf : s.inFlight
    · rcases hq : s.write_msgs_ with - | ⟨front, rest⟩
      · simp [wStep, hf, hq] at h
      · rcases ok with - | -
        · simp only [wStep, hf, hq, if_pos, Bool.false_eq_true, if_false,
            Option.some.injEq, Prod.mk.injEq] at h
          obtain ⟨h1, h2⟩ := h
          subst h1
          subst h2
          simp [transmittedMsgs, enqueuedMsgs, hq]
        · rcases rest with - | ⟨next, more⟩ <;>
          · simp only [wStep, hf, hq, if_pos, Option.some.injEq,
              Prod.mk.injEq] at h
            obtain ⟨h1, h2⟩ := h
            subst h1
            subst h2
            simp [transmittedMsgs, enqueuedMsgs, hq]
    · simp [wStep, hf] at h

/-- Each write-side step preserves the invariant that an outstanding
write has its frame at the queue front. -/
theorem wStep_inv {s s1 : WState} {c : WCmd} {evs : List WEvent}
    (h : wStep s c = some (s1, evs))
    (_hs : s.inFlight = true → s.write_msgs_ ≠ []) :
    s1.inFlight = true → s1.write_msgs_ ≠ [] := by
  rcases c with m | ok
  · by_cases he : s.write_msgs_.isEmpty <;>
    · simp only [wStep, he, if_pos, Bool.false_eq_true, if_false,
        Option.some.injEq, Prod.mk.injEq] at h
      obtain ⟨h1, h2⟩ := h
      subst h1
      simp
  · by_cases hf : s.inFlight
    · rcases hq : s.write_msgs_ with - | ⟨front, rest⟩
      · simp [wStep, hf, hq] at h
      · rcases ok with - | -
        · simp only [wStep, hf, hq, if_pos, Bool.false_eq_true, if_false,
            Option.some.injEq, Prod.mk.injEq] at h
          obtain ⟨h1, h2⟩ := h
          subst h1
          simp [hq]
        · rcases rest with - | ⟨next, more⟩ <;>
          · simp only [wStep, hf, hq, if_pos, Option.some.injEq,
              Prod.mk.injEq] at h
            obtain ⟨h1, h2⟩ := h
            subst h1
            simp
    · simp [wStep, hf] at h

/-- Each write-side step emits events consistent with the one-in-flight
discipline. -/
theorem wStep_flight {s s1 : WState} {c : WCmd} {evs : List WEvent}
    (h : wStep s c = some (s1, evs))
    (hs : s.inFlight = true → s.write_msgs_ ≠ []) :
    flight s.inFlight evs = some s1.inFlight := by
  rcases c with m | ok
  · by_cases he : s.write_msgs_.isEmpty
    · have hnf : s.inFlight = false := by
        by_contra hc
        exact hs (by revert hc; cases s.inFlight <;> simp)
          (List.isEmpty_iff.mp he)
      simp only [wStep, he, if_pos, Option.some.injEq, Prod.mk.injEq] at h
      obtain ⟨h1, h2⟩ := h
      subst h1
      subst h2
      simp [flight, hnf]
    · simp only [wStep, he, Bool.false_eq_true, if_false,
        Option.some.injEq, Prod.mk.injEq] at h
      obtain ⟨h1, h2⟩ := h
      subst h1
      subst h2
      cases s.inFlight <;> simp [flight]
  · by_cases hf : s.inFlight
    · rcases hq : s.write_msgs_ with - | ⟨front, rest⟩
      · simp [wStep, hf, hq] at h
      · rcases ok with - | -
        · simp only [wStep, hf, hq, if_pos, Bool.false_eq_true, if_false,
            Option.some.injEq, Prod.mk.injEq] at h
          obtain ⟨h1, h2⟩ := h
          subst h1
          subst h2
          simp [flight, hf]
        · rcases rest with - | ⟨next, more⟩ <;>
          · simp only [wStep, hf, hq, if_pos, Option.some.injEq,
              Prod.mk.injEq] at h
            obtain ⟨h1, h2⟩ := h
            subst h1
            subst h2
            simp [flight, hf]
    · simp [wStep, hf] at h

theorem flight_append (a : List WEvent) :
    ∀ (b : List WEvent) (f0 f1 : Bool), flight f0 a = some f1 →
      flight f0 (a ++ b) = flight f1 b := by
  induction a with
  | nil =>
    intro b f0 f1 h
    simp only [flight] at h
    cases h
    rfl
  | cons e rest ih =>
    intro b f0 f1 h
    cases e <;> cases f0 <;> simp only [flight] at h ⊢ <;>
      first
        | exact ih _ _ _ h
        | cases h

/-- Over a whole run, the queue contents are conserved. -/
theorem wRun_conservation :
    ∀ (cmds : List WCmd) (s s2 : WState) (tr : List WEvent),
    wRun s cmds = some (s2, tr) →
    transmittedMsgs tr ++ s2.write_msgs_ = s.write_msgs_ ++ enqueuedMsgs cmds := by
  intro cmds
  induction cmds with
  | nil =>
    intro s s2 tr h
    simp only [wRun, Option.some.injEq, Prod.mk.injEq] at h
    rw [← h.1, ← h.2]
    simp [transmittedMsgs, enqueuedMsgs]
  | cons c cs ih =>
    intro s s2 tr h
    rw [wRun] at h
    rcases h1 : wStep s c with - | ⟨s1, evs⟩
    · rw [h1, Option.none_bind] at h
      cases h
    · rw [h1, Option.some_bind] at h
      rcases h2 : wRun s1 cs with - | ⟨s3, evs2⟩
      · rw [h2, Option.none_bind] at h
        cases h
      · rw [h2, Option.some_bind] at h
        simp only [Option.some.injEq, Prod.mk.injEq] at h
        rw [← h.1, ← h.2]
        rw [transmittedMsgs_append, List.append_assoc,
          ih s1 s3 evs2 h2, ← List.append_assoc,
          wStep_conservation h1, List.append_assoc]
        rcases c with m | ok <;> simp [enqueuedMsgs]

/-- Over a whole run from an invariant state, the event trace respects
the one-in-flight discipline. -/
theorem wRun_flight :
    ∀ (cmds : List WCmd) (s s2 : WState) (tr : List WEvent),
    (s.inFlight = true → s.write_msgs_ ≠ []) →
    wRun s cmds = some (s2, tr) →
    flight s.inFlight tr = some s2.inFlight := by
  intro cmds
  induction cmds with
  | nil =>
    intro s s2 tr hs h
    simp only [wRun, Option.some.injEq, Prod.mk.injEq] at h
    rw [← h.1, ← h.2]
    cases s.inFlight <;> rfl
  | cons c cs ih =>
    intro s s2 tr hs h
    rw [wRun] at h
    rcases h1 : wStep s c with - | ⟨s1, evs⟩
    · rw [h1, Option.none_bind] at h
      cases h
    · rw [h1, Option.some_bind] at h
      rcases h2 : wRun s1 cs with - | ⟨s3, evs2⟩
      · rw [h2, Option.none_bind] at h
        cases h
      · rw [h2, Option.some_bind] at h
        simp only [Option.some.injEq, Prod.mk.injEq] at h
        rw [← h.1, ← h.2]
        exact (flight_append evs evs2 _ _ (wStep_flight h1 hs)).trans
          (ih s1 s3 evs2 (wStep_inv h1 hs) h2)

end chat_session

/-- C7: `Session.deliver` appends the text to the outbound queue and
issues a write only when the queue was empty before the append; over any
write-side run from the initial state, the transmitted frames are exactly
an initial segment of the enqueued messages in enqueue order, and the
event trace obeys the one-write-in-flight discipline: every write begins
only when no write is outstanding, and each next write begins only after
the previous one completed. -/
theorem C7_write_queue_fifo (cmds : List chat_session.WCmd)
    (s2 : chat_session.WState) (tr : List chat_session.WEvent)
    (hrun : chat_session.wRun chat_session.wInit cmds = some (s2, tr)) :
    (∀ (s : chat_session.WState) (msg : String),
        chat_session.wStep s (chat_session.WCmd.deliver msg)
          = some ({ write_msgs_ := s.write_msgs_ ++ [msg],
                    inFlight := s.write_msgs_.isEmpty || s.inFlight },
              if s.write_msgs_.isEmpty
                then [chat_session.WEvent.beginWrite msg] else []))
    ∧ chat_session.transmittedMsgs tr
        = (chat_session.enqueuedMsgs cmds).take
            (chat_session.transmittedMsgs tr).length
    ∧ chat_session.flight false tr = some s2.inFlight := by
  refine ⟨fun s msg => ?_, ?_, ?_⟩
  · by_cases he : s.write_msgs_.isEmpty
    · simp [chat_session.wStep, he]
    · simp only [chat_session.wStep, he, Bool.false_eq_true, if_false,
        Bool.false_or]
  · have hcons := chat_session.wRun_conservation cmds chat_session.wInit s2 tr hrun
    simp only [chat_session.wInit, List.nil_append] at hcons
    rw [← hcons]
    exact (List.take_left _ _).symm
  · exact chat_session.wRun_flight cmds chat_session.wInit s2 tr (by simp [chat_session.wInit]) hrun

/-- Witness for C7 at a concrete run: two deliveries and two successful
write completions transmit both frames in enqueue order. -/
theorem C7_write_queue_fifo_witness :
    (∀ (s : chat_session.WState) (msg : String),
        chat_session.wStep s (chat_session.WCmd.deliver msg)
          = some ({ write_msgs_ := s.write_msgs_ ++ [msg],
                    inFlight := s.write_msgs_.isEmpty || s.inFlight },
              if s.write_msgs_.isEmpty
                then [chat_session.WEvent.beginWrite msg] else []))
    ∧ chat_session.transmittedMsgs
          [chat_session.WEvent.beginWrite "a", chat_session.WEvent.transmitted "a",
            chat_session.WEvent.beginWrite "b", chat_session.WEvent.transmitted "b"]
        = (chat_session.enqueuedMsgs
            [chat_session.WCmd.deliver "a", chat_session.WCmd.deliver "b",
              chat_session.WCmd.complete true, chat_session.WCmd.complete true]).take
            (chat_session.transmittedMsgs
              [chat_session.WEvent.beginWrite "a", chat_session.WEvent.transmitted "a",
                chat_session.WEvent.beginWrite "b",
                chat_session.WEvent.transmitted "b"]).length
    ∧ chat_session.flight false
          [chat_session.WEvent.beginWrite "a", chat_session.WEvent.transmitted "a",
            chat_session.WEvent.beginWrite "b", chat_session.WEvent.transmitted "b"]
        = some (⟨[], false⟩ : chat_session.WState).inFlight :=
  C7_write_queue_fifo
    [chat_session.WCmd.deliver "a", chat_session.WCmd.deliver "b",
      chat_session.WCmd.complete true, chat_session.WCmd.complete true]
    ⟨[], false⟩
    [chat_session.WEvent.beginWrite "a", chat_session.WEvent.transmitted "a",
      chat_session.WEvent.beginWrite "b", chat_session.WEvent.transmitted "b"]
    rfl

section CodecFacts

open chat_message

example : decode_header (encode_header 0) = (true, 0) := by decide
example : decode_header (encode_header 5) = (true, 5) := by decide
example : decode_header (encode_header 127) = (true, 127) := by decide
example : decode_header (encode_header 512) = (true, 512) := by decide
example : decode_header (encode_header 128) = (false, 0) := by decide
example : decode_header (encode_header 200) = (false, 0) := by decide
example : decode_header (encode_header 384) = (false, 0) := by decide
example : decode_header ⟨0, 0, 2, 1⟩ = (false, 0) := by decide
example : decode_header ⟨255, 255, 255, 255⟩ = (false, 0) := by decide

end CodecFacts
